import Mathlib

/-!
Verification development for the mongui terminal UI.

The component-orchestration core (`internal/tui/core/app.go`,
`internal/tui/core/pages.go`) is embedded as a pure state-transition
system: the terminal toolkit's page container and focus cell are modelled
at their boundary (a list of page entries, where the last visible entry is
the one receiving input, plus an optional focused primitive), and the
repository's wrapper functions (`AddPage`, `RemovePage`, `SetFocus`,
`GiveBackFocus`, `SetStyle`) are translated line by line.  Further
sections embed the input-bar component (history file, blocking event
listener, enable/disable toggling) and the data-access wrapper.
-/

namespace Mongui

/-- A rendering primitive, identified by its `GetIdentifier()` string. -/
structure Prim where
  id : String
deriving DecidableEq, Repr

/-- Event types of the element manager (`manager.FocusChanged` etc.). -/
inductive EventType where
  | focusChanged
  | styleChanged
  | dataChanged
deriving DecidableEq, Repr

/-- A broadcast message: a type plus an optional payload (the component
identifier for `FocusChanged`, nothing for `StyleChanged`). -/
structure Event where
  type : EventType
  data : Option String
deriving DecidableEq, Repr

/-- One entry of the toolkit's page container: name, primitive, the
resize-on-show flag and the visibility flag (`tview.Pages` page). -/
structure Page where
  name : String
  item : Prim
  resize : Bool
  visible : Bool
deriving DecidableEq, Repr

/-- The orchestration state: the page container, the toolkit's focused
primitive, the `App.previousFocus` field, and the log of events broadcast
through the element manager (most recent last). -/
structure AppState where
  pages : List Page
  focus : Option Prim
  previousFocus : Option Prim
  events : List Event
deriving DecidableEq, Repr

/-- Whether the page container holds input focus: the focused primitive is
one of its pages (toolkit boundary: container `HasFocus`). -/
def pagesHasFocus (s : AppState) : Bool :=
  match s.focus with
  | none => false
  | some p => s.pages.any fun pg => decide (pg.item = p)

/-- The front page of the container: the last visible entry (toolkit
boundary; spec §3: the last entry is the one currently receiving input). -/
def frontPage (l : List Page) : Option Page :=
  (l.filter (·.visible)).getLast?

/-- The primitive of the front page, if any. -/
def frontItem (s : AppState) : Option Prim :=
  (frontPage s.pages).map Page.item

/-- Remove the first page with the given name (toolkit `AddPage` dedup /
`RemovePage` removal). -/
def removePageNamed (n : String) : List Page → List Page
  | [] => []
  | pg :: rest => if pg.name = n then rest else pg :: removePageNamed n rest

/-- Toolkit boundary: when the container holds focus it delegates focus to
its front (last visible) page after a structural change. -/
def tvFocusFront (s : AppState) : AppState :=
  match frontPage s.pages with
  | some pg => { s with focus := some pg.item }
  | none => s

/-- Toolkit `Pages.AddPage`: replace any page of the same name, append the
new entry, and if the container held focus delegate focus to the front page. -/
def tvAddPage (s : AppState) (n : String) (p : Prim) (resize visible : Bool) : AppState :=
  let hadFocus := pagesHasFocus s
  let s' := { s with pages := removePageNamed n s.pages ++ [⟨n, p, resize, visible⟩] }
  if hadFocus then tvFocusFront s' else s'

/-- Toolkit `Pages.RemovePage`: remove the named page and, if the container
held focus, delegate focus to the new front page. -/
def tvRemovePage (s : AppState) (n : String) : AppState :=
  let hadFocus := pagesHasFocus s
  let s' := { s with pages := removePageNamed n s.pages }
  if hadFocus then tvFocusFront s' else s'

/-- Embeds `App.SetPreviousFocus`: `a.previousFocus = a.GetFocus()`. -/
def setPreviousFocus (s : AppState) : AppState :=
  { s with previousFocus := s.focus }

/-- Embeds `App.FocusChanged`: broadcast a FocusChanged event carrying the
primitive's identifier. -/
def focusChanged (s : AppState) (p : Prim) : AppState :=
  { s with events := s.events ++ [⟨EventType.focusChanged, some p.id⟩] }

/-- Embeds `App.SetFocus`: record the previous focus, transfer focus, broadcast. -/
def setFocus (s : AppState) (p : Prim) : AppState :=
  focusChanged { s with previousFocus := s.focus, focus := some p } p

/-- Embeds `App.GiveBackFocus`: if a previous focus is recorded, `SetFocus` to it
and clear the record; otherwise do nothing. -/
def giveBackFocus (s : AppState) : AppState :=
  match s.previousFocus with
  | some p => { setFocus s p with previousFocus := none }
  | none => s

/-- Embeds the `Pages.AddPage` wrapper (pages.go): capture the previous focus, add the
page through the toolkit, and if the page is visible and now focused
broadcast FocusChanged. -/
def addPage (s : AppState) (n : String) (p : Prim) (resize visible : Bool) : AppState :=
  let s1 := setPreviousFocus s
  let s2 := tvAddPage s1 n p resize visible
  if visible && decide (s2.focus = some p) then focusChanged s2 p else s2

/-- Embeds the `Pages.RemovePage` wrapper (pages.go): remove through the toolkit, then
`GiveBackFocus`. -/
def removePage (s : AppState) (n : String) : AppState :=
  giveBackFocus (tvRemovePage s n)

/-- Embeds the `Pages.HasPage` wrapper: pure lookup. -/
def hasPage (s : AppState) (n : String) : Bool :=
  s.pages.any fun pg => decide (pg.name = n)

/-- A page-stack operation: `ShowPage` or `HidePage`. -/
inductive Op where
  | showPage (n : String) (p : Prim) (resize visible : Bool)
  | hidePage (n : String)
deriving DecidableEq, Repr

/-- Apply one operation to the state. -/
def applyOp (s : AppState) : Op → AppState
  | .showPage n p r v => addPage s n p r v
  | .hidePage n => removePage s n

/-- Run a sequence of operations. -/
def runOps (s : AppState) (ops : List Op) : AppState :=
  ops.foldl applyOp s

/-- The initial state: no pages, no recorded previous focus, no events;
the toolkit focus is arbitrary. -/
def initState (f : Option Prim) : AppState :=
  ⟨[], f, none, []⟩

/-- Depth of the focus-restoration record (the `previousFocus` slot). -/
def focusDepth (s : AppState) : Nat :=
  match s.previousFocus with
  | some _ => 1
  | none => 0

/-- Depth of the page stack. -/
def pageDepth (s : AppState) : Nat :=
  s.pages.length

/-- Well-matched sequences: every `ShowPage` has exactly one matching,
properly nested, later `HidePage` of the same id. -/
inductive Matched : List Op → Prop where
  | nil : Matched []
  | wrap (n : String) (p : Prim) (r v : Bool) {ops : List Op} :
      Matched ops → Matched (Op.showPage n p r v :: ops ++ [Op.hidePage n])
  | seq {l1 l2 : List Op} : Matched l1 → Matched l2 → Matched (l1 ++ l2)

/-- Names of the pages of a page list. -/
def pageNames (l : List Page) : List String := l.map Page.name

/-- The stack-discipline invariant: a recorded previous focus implies a
nonempty page stack. -/
def StackInv (s : AppState) : Prop := s.previousFocus ≠ none → s.pages ≠ []

/-- An opaque loaded-styles snapshot (the result of `config.LoadStyles`). -/
abbrev Styles := String

/-- The style-related state of the application: the in-memory configured
style name (`a.config.Styles.CurrentStyle`), the persisted configuration's
style name, the loaded styles (`a.styles`), the styles applied to the page
container (`Pages.SetStyle`), and the broadcast log. -/
structure StyleApp where
  currentStyle : String
  persistedStyle : String
  styles : Option Styles
  pagesStyle : Option Styles
  events : List Event
deriving DecidableEq, Repr

/-- The external configuration collaborators, at their boundary (spec §6):
`UpdateConfig` persistence may fail, and `LoadStyles` may fail or return a
styles snapshot for the requested name. -/
structure StyleEnv where
  updateConfigErr : Option String
  loadStyles : String → Except String Styles

/-- Embeds `App.SetStyle` (app.go): set the configured style name, persist
the configuration, reload the styles (the Go multiple assignment
`a.styles, err = config.LoadStyles(...)` overwrites `a.styles` with the
returned value — modelled from the spec as no snapshot on error), apply
them to the page container and broadcast StyleChanged; any error is
returned at the point it occurs. -/
def setStyle (env : StyleEnv) (a : StyleApp) (name : String) : StyleApp × Option String :=
  let a1 := { a with currentStyle := name }
  match env.updateConfigErr with
  | some e => (a1, some e)
  | none =>
    let a2 := { a1 with persistedStyle := name }
    match env.loadStyles name with
    | .error e => ({ a2 with styles := none }, some e)
    | .ok st =>
      ({ a2 with
          styles := some st
          pagesStyle := some st
          events := a2.events ++ [⟨EventType.styleChanged, none⟩] }, none)

/-- File contents are a sequence of characters (a Go string). -/
abbrev FileContents := List Char

/-- Embeds `strings.Split(contents, "\n")`: split into parts at every
newline, preserving empty parts. -/
def splitLines : FileContents → List FileContents
  | [] => [[]]
  | c :: rest =>
    if c = '\n' then [] :: splitLines rest
    else
      match splitLines rest with
      | [] => [[c]]
      | l :: ls => (c :: l) :: ls

/-- Embeds `InputBar.LoadHistory` on existing file contents: split into
lines and drop empty lines. -/
def loadHistoryLines (c : FileContents) : List FileContents :=
  (splitLines c).filter fun l => decide (l ≠ [])

/-- Embeds `InputBar.SaveToHistory`: the file is created if absent
(`O_APPEND|O_CREATE`), the history is loaded, and if the text already
occurs as a history line nothing is written; otherwise `text + "\n"` is
appended. -/
def saveToHistory (text : FileContents) (file : Option FileContents) : FileContents :=
  let c := file.getD []
  if text ∈ loadHistoryLines c then c else c ++ text ++ ['\n']

/-- The lines of a newline-terminated prefix of a file (helper for
reasoning about `splitLines` over appends). -/
def linesBody : FileContents → List FileContents
  | [] => []
  | c :: rest =>
    if c = '\n' then [] :: linesBody rest
    else
      match linesBody rest with
      | [] => [[c]]
      | l :: ls => (c :: l) :: ls

/-- A file whose contents are empty or end with a newline — the shape
every file written by `SaveToHistory` has. -/
def endsWithNewlineOrEmpty (c : FileContents) : Prop :=
  c = [] ∨ c.getLast? = some '\n'

/-- Key of a terminal key event (`tcell.Key`). -/
inductive TKey where
  | enter
  | esc
  | other
deriving DecidableEq, Repr

/-- A message received on the input bar's event channel: a key event or a
value of some other type (the Go type assertion `key.(tcell.Key)` fails). -/
inductive ChanMsg where
  | key (k : TKey)
  | nonKey
deriving DecidableEq, Repr

/-- A call made to the requester's callbacks by the listener. -/
inductive CallbackCall where
  | accept (text : FileContents)
  | reject
deriving DecidableEq, Repr

/-- The shared state of the input-bar component: the enabled flag and the
element manager's component stack (top first). -/
structure BarState where
  enabled : Bool
  components : List String
deriving DecidableEq, Repr

/-- Embeds `ComponentManager.PushComponent`. -/
def pushComponent (l : List String) (c : String) : List String := c :: l

/-- Embeds `ComponentManager.PopComponent`. -/
def popComponent (l : List String) : List String := l.tail

/-- Embeds `InputBar.Enable`: under the mutex, set the flag and push the
component. -/
def enableBar (b : BarState) : BarState :=
  { enabled := true, components := pushComponent b.components "InputBar" }

/-- Embeds `InputBar.Disable`: under the mutex, clear the flag and pop the
component. -/
def disableBar (b : BarState) : BarState :=
  { enabled := false, components := popComponent b.components }

/-- Embeds one iteration of `InputBar.EventListener`: receive a channel
message; a non-key message is skipped; Esc disables and rejects; Enter
disables, saves the entered text to history and accepts with the text;
any other key falls through the switch. Returns the new bar state, the
new history file contents, and the callback calls made. -/
def listenerStep (b : BarState) (hist : Option FileContents) (text : FileContents)
    (msg : ChanMsg) : BarState × Option FileContents × List CallbackCall :=
  match msg with
  | .nonKey => (b, hist, [])
  | .key .esc => (disableBar b, hist, [.reject])
  | .key .enter => (disableBar b, some (saveToHistory text hist), [.accept text])
  | .key .other => (b, hist, [])

/-- Embeds one sequential call of `InputBar.Toggle`: the unlocked
`IsEnabled()` read followed by `Disable()` or `Enable()`. -/
def toggleOnce (b : BarState) : BarState :=
  if b.enabled then disableBar b else enableBar b

/-- The state of two threads each executing `InputBar.Toggle` on a shared
bar: the shared state, and each thread's program counter (0 = about to
read `IsEnabled()`, 1 = about to run its locked critical section, 2 =
done) together with the flag value it read. -/
structure ToggleThreads where
  g : BarState
  pc0 : Nat
  saw0 : Bool
  pc1 : Nat
  saw1 : Bool
deriving DecidableEq, Repr

/-- One scheduling step: run the next atomic action of the chosen thread.
The unlocked `IsEnabled()` read is one atomic step; the mutex makes each
`Enable`/`Disable` body one atomic step. -/
def schedStep (s : ToggleThreads) (who : Bool) : ToggleThreads :=
  if who then
    match s.pc1 with
    | 0 => { s with pc1 := 1, saw1 := s.g.enabled }
    | 1 => { s with pc1 := 2, g := if s.saw1 then disableBar s.g else enableBar s.g }
    | _ => s
  else
    match s.pc0 with
    | 0 => { s with pc0 := 1, saw0 := s.g.enabled }
    | 1 => { s with pc0 := 2, g := if s.saw0 then disableBar s.g else enableBar s.g }
    | _ => s

/-- Run a schedule (a sequence of thread choices). -/
def runSched (s : ToggleThreads) (sched : List Bool) : ToggleThreads :=
  sched.foldl schedStep s

/-- Both toggling threads poised at the start, on a disabled bar. -/
def initToggle : ToggleThreads :=
  ⟨⟨false, []⟩, 0, false, 0, false⟩

/-- A stored document: its `_id` and its remaining content. -/
structure MDoc where
  docId : Nat
  body : String
deriving DecidableEq, Repr

/-- Driver boundary: `InsertOne` appends a new document to the collection. -/
def insertOne (coll : List MDoc) (d : MDoc) : List MDoc := coll ++ [d]

/-- Embeds `Dao.UpdateDocument` (mongo dao): the body executes
`InsertOne(ctx, document)`; the `id` argument is not used. -/
def updateDocument (coll : List MDoc) (id : Nat) (document : MDoc) : List MDoc :=
  insertOne coll document

end Mongui

namespace Mongui

/-- Claim C4: `SetFocus(v)` then `GiveBackFocus()` restores focus to the
view `f` that held focus immediately before the `SetFocus` call. -/
theorem c4_set_give_back (s : AppState) (v f : Prim) (h : s.focus = some f) :
    (giveBackFocus (setFocus s v)).focus = some f := by
  simp [giveBackFocus, setFocus, focusChanged, h]

/-- Witness for C4 at a concrete state. -/
theorem c4_set_give_back_witness :
    (⟨[], some ⟨"f"⟩, none, []⟩ : AppState).focus = some ⟨"f"⟩ ∧
      (giveBackFocus (setFocus ⟨[], some ⟨"f"⟩, none, []⟩ ⟨"v"⟩)).focus = some ⟨"f"⟩ :=
  ⟨rfl, c4_set_give_back _ ⟨"v"⟩ ⟨"f"⟩ rfl⟩

/-- Claim C1: from a focused base page, showing overlay a, then nested
overlay b, then hiding b restores focus to a, and hiding a restores focus
to the base view, so the final focus equals the initial focus. -/
theorem c1_nested_overlay_focus (base pa pb : Prim) (ev : List Event) :
    let s0 : AppState := ⟨[⟨"base", base, false, true⟩], some base, none, ev⟩
    let s1 := addPage s0 "a" pa true true
    let s2 := addPage s1 "b" pb true true
    let s3 := removePage s2 "b"
    let s4 := removePage s3 "a"
    s1.focus = some pa ∧ s2.focus = some pb ∧ s3.focus = some pa ∧
      s4.focus = some base ∧ s4.focus = s0.focus := by
  simp [addPage, removePage, tvAddPage, tvRemovePage, tvFocusFront, frontPage,
    pagesHasFocus, setPreviousFocus, giveBackFocus, setFocus, focusChanged,
    removePageNamed, hasPage]

/-- Appending a visible page makes it the front page. -/
theorem frontPage_append_visible (l : List Page) (pg : Page) (h : pg.visible = true) :
    frontPage (l ++ [pg]) = some pg := by
  simp [frontPage, List.filter_append, h]

/-- Delegating focus to the front page does not change the page list. -/
theorem tvFocusFront_pages (s : AppState) : (tvFocusFront s).pages = s.pages := by
  unfold tvFocusFront; split <;> rfl

/-- Delegating focus to the front page does not change the focus record. -/
theorem tvFocusFront_previousFocus (s : AppState) :
    (tvFocusFront s).previousFocus = s.previousFocus := by
  unfold tvFocusFront; split <;> rfl

/-- Broadcasting does not change the page list. -/
theorem focusChanged_pages (s : AppState) (p : Prim) : (focusChanged s p).pages = s.pages := rfl

/-- Broadcasting does not change the focus record. -/
theorem focusChanged_previousFocus (s : AppState) (p : Prim) :
    (focusChanged s p).previousFocus = s.previousFocus := rfl

/-- Lemma: `AddPage` replaces any page of the same name and appends the new entry. -/
theorem addPage_pages (s : AppState) (n : String) (p : Prim) (r v : Bool) :
    (addPage s n p r v).pages = removePageNamed n s.pages ++ [⟨n, p, r, v⟩] := by
  simp only [addPage, tvAddPage, setPreviousFocus]
  split <;> split <;> simp [tvFocusFront_pages, focusChanged_pages]

/-- Lemma: `AddPage` stores the previously focused view in the focus slot. -/
theorem addPage_previousFocus (s : AppState) (n : String) (p : Prim) (r v : Bool) :
    (addPage s n p r v).previousFocus = s.focus := by
  simp only [addPage, tvAddPage, setPreviousFocus]
  split <;> split <;> simp [tvFocusFront_previousFocus, focusChanged_previousFocus]

/-- Claim C2: `ShowPage(id, view, resizable, visible)` with `visible = true`
captures the currently focused view into the focus-restoration slot, adds
the page at the top of the page stack, and — when the page stack holds the
input focus, so the new front page becomes focused — transfers focus to the
new view and broadcasts a FocusChanged event carrying its identifier. -/
theorem c2_show_page_effects (s : AppState) (n : String) (p : Prim) (r : Bool) :
    (addPage s n p r true).previousFocus = s.focus ∧
    hasPage (addPage s n p r true) n = true ∧
    (addPage s n p r true).pages.getLast? = some ⟨n, p, r, true⟩ ∧
    (pagesHasFocus s = true →
      (addPage s n p r true).focus = some p ∧
      (addPage s n p r true).events = s.events ++ [⟨EventType.focusChanged, some p.id⟩]) := by
  have hfront : frontPage (removePageNamed n s.pages ++ [⟨n, p, r, true⟩]) = some ⟨n, p, r, true⟩ :=
    frontPage_append_visible _ _ rfl
  refine ⟨addPage_previousFocus s n p r true, ?_, ?_, ?_⟩
  · simp [hasPage, addPage_pages, List.any_append]
  · rw [addPage_pages]
    exact List.getLast?_concat _
  · intro hF
    have h1 : pagesHasFocus { s with previousFocus := s.focus } = pagesHasFocus s := rfl
    simp only [addPage, tvAddPage, setPreviousFocus]
    rw [h1, hF]
    simp [tvFocusFront, hfront, focusChanged]

/-- Witness for C2 at a concrete focused state. -/
theorem c2_show_page_witness :
    pagesHasFocus (⟨[⟨"base", ⟨"b"⟩, false, true⟩], some ⟨"b"⟩, none, []⟩ : AppState) = true ∧
      ((addPage ⟨[⟨"base", ⟨"b"⟩, false, true⟩], some ⟨"b"⟩, none, []⟩ "a" ⟨"pa"⟩ true true).focus
          = some ⟨"pa"⟩ ∧
        (addPage ⟨[⟨"base", ⟨"b"⟩, false, true⟩], some ⟨"b"⟩, none, []⟩ "a" ⟨"pa"⟩ true true).events
          = [] ++ [⟨EventType.focusChanged, some "pa"⟩]) :=
  ⟨by decide,
    (c2_show_page_effects ⟨[⟨"base", ⟨"b"⟩, false, true⟩], some ⟨"b"⟩, none, []⟩
        "a" ⟨"pa"⟩ true).2.2.2 (by decide)⟩

/-- Removing a name that occurs on no page is a no-op on the page list. -/
theorem removePageNamed_not_found (n : String) (l : List Page)
    (h : ∀ pg ∈ l, ¬ pg.name = n) : removePageNamed n l = l := by
  induction l with
  | nil => rfl
  | cons pg rest ih =>
    rw [removePageNamed, if_neg (h pg (List.mem_cons_self pg rest)),
      ih fun q hq => h q (List.mem_cons_of_mem pg hq)]

/-- Counterexample for C3: after showing overlay a from a focused base
page, hiding the never-shown id c changes the current focus (the
single-slot focus record is consumed by the unmatched hide). -/
theorem c3_hide_unknown_counterexample :
    let s := runOps ⟨[], some ⟨"b0"⟩, none, []⟩
      [Op.showPage "base" ⟨"b0"⟩ false true, Op.showPage "a" ⟨"a1"⟩ false true]
    hasPage s "c" = false ∧ (removePage s "c").focus ≠ s.focus := by
  decide

/-- Claim C3 (amended): hiding an id that is not in the page stack leaves
the state unchanged, provided the focus-restoration slot is empty and the
focus is consistent with the front page (or lies outside the page stack). -/
theorem c3_hide_unknown_amended (s : AppState) (n : String)
    (h1 : s.previousFocus = none) (h2 : hasPage s n = false)
    (h3 : pagesHasFocus s = true → frontItem s = s.focus) :
    removePage s n = s := by
  have hnames : ∀ pg ∈ s.pages, ¬ pg.name = n := by
    intro pg hpg hname
    have hmem : hasPage s n = true := by
      simp only [hasPage, List.any_eq_true, decide_eq_true_eq]
      exact ⟨pg, hpg, hname⟩
    rw [h2] at hmem
    exact Bool.false_ne_true hmem
  have hrm : removePageNamed n s.pages = s.pages := removePageNamed_not_found n s.pages hnames
  have hgb : giveBackFocus s = s := by simp [giveBackFocus, h1]
  simp only [removePage, tvRemovePage, hrm]
  have heta : ({ s with pages := s.pages } : AppState) = s := rfl
  rw [heta]
  cases hF : pagesHasFocus s with
  | false => simpa using hgb
  | true =>
    simp only [if_true]
    cases hfp : frontPage s.pages with
    | none => simp [tvFocusFront, hfp, hgb]
    | some pg =>
      have hfoc : some pg.item = s.focus := by simpa [frontItem, hfp] using h3 hF
      have : tvFocusFront s = s := by
        simp [tvFocusFront, hfp, hfoc]
      rw [this]
      exact hgb

/-- Witness for C3 (amended) at a concrete state. -/
theorem c3_hide_unknown_witness :
    (⟨[⟨"base", ⟨"b"⟩, false, true⟩], some ⟨"b"⟩, none, []⟩ : AppState).previousFocus = none ∧
    hasPage (⟨[⟨"base", ⟨"b"⟩, false, true⟩], some ⟨"b"⟩, none, []⟩ : AppState) "x" = false ∧
    removePage (⟨[⟨"base", ⟨"b"⟩, false, true⟩], some ⟨"b"⟩, none, []⟩ : AppState) "x"
      = ⟨[⟨"base", ⟨"b"⟩, false, true⟩], some ⟨"b"⟩, none, []⟩ :=
  ⟨rfl, by decide,
    c3_hide_unknown_amended _ "x" rfl (by decide) (fun _ => by decide)⟩

/-- Lemma: `GiveBackFocus` always leaves the focus slot empty. -/
theorem giveBackFocus_previousFocus (s : AppState) :
    (giveBackFocus s).previousFocus = none := by
  cases hp : s.previousFocus with
  | some p => simp [giveBackFocus, hp]
  | none => simp [giveBackFocus, hp]

/-- Lemma: `GiveBackFocus` does not change the page list. -/
theorem giveBackFocus_pages (s : AppState) : (giveBackFocus s).pages = s.pages := by
  cases hp : s.previousFocus <;> simp [giveBackFocus, hp, setFocus, focusChanged]

/-- Lemma: `RemovePage` always leaves the focus slot empty. -/
theorem removePage_previousFocus (s : AppState) (n : String) :
    (removePage s n).previousFocus = none :=
  giveBackFocus_previousFocus _

/-- Lemma: `RemovePage` removes the named page from the page list. -/
theorem removePage_pages (s : AppState) (n : String) :
    (removePage s n).pages = removePageNamed n s.pages := by
  rw [removePage, giveBackFocus_pages]
  simp only [tvRemovePage]
  split <;> simp [tvFocusFront_pages]

/-- Removing a page can only shrink the set of page names. -/
theorem pageNames_removePageNamed_subset (n : String) (l : List Page) :
    pageNames (removePageNamed n l) ⊆ pageNames l := by
  induction l with
  | nil => simp [removePageNamed]
  | cons pg rest ih =>
    by_cases h : pg.name = n
    · simp only [removePageNamed, if_pos h, pageNames, List.map_cons]
      exact List.subset_cons_self _ _
    · simp only [removePageNamed, if_neg h, pageNames, List.map_cons]
      exact List.cons_subset_cons _ ih

/-- Removing a page preserves distinctness of page names. -/
theorem nodup_pageNames_removePageNamed (n : String) (l : List Page)
    (h : (pageNames l).Nodup) : (pageNames (removePageNamed n l)).Nodup := by
  induction l with
  | nil => simpa [removePageNamed] using h
  | cons pg rest ih =>
    rw [pageNames, List.map_cons, List.nodup_cons] at h
    by_cases hc : pg.name = n
    · simpa [removePageNamed, hc] using h.2
    · simp only [removePageNamed, if_neg hc, pageNames, List.map_cons, List.nodup_cons]
      exact ⟨fun hm => h.1 (pageNames_removePageNamed_subset n rest hm), ih h.2⟩

/-- On a list with distinct names, removal eliminates the removed name. -/
theorem not_mem_pageNames_removePageNamed (n : String) (l : List Page)
    (h : (pageNames l).Nodup) : n ∉ pageNames (removePageNamed n l) := by
  induction l with
  | nil => simp [removePageNamed, pageNames]
  | cons pg rest ih =>
    rw [pageNames, List.map_cons, List.nodup_cons] at h
    by_cases hc : pg.name = n
    · simpa [removePageNamed, hc] using hc ▸ h.1
    · simp only [removePageNamed, if_neg hc, pageNames, List.map_cons, List.mem_cons,
        not_or]
      exact ⟨fun he => hc he.symm, ih h.2⟩

/-- Page names after `AddPage`: the deduplicated old names plus the new one. -/
theorem pageNames_addPage (s : AppState) (n : String) (p : Prim) (r v : Bool) :
    pageNames (addPage s n p r v).pages = pageNames (removePageNamed n s.pages) ++ [n] := by
  rw [addPage_pages]
  simp [pageNames]

/-- Lemma: `AddPage` preserves distinctness of page names. -/
theorem nodup_pageNames_addPage (s : AppState) (n : String) (p : Prim) (r v : Bool)
    (h : (pageNames s.pages).Nodup) : (pageNames (addPage s n p r v).pages).Nodup := by
  rw [pageNames_addPage]
  rw [List.nodup_append]
  refine ⟨nodup_pageNames_removePageNamed n s.pages h, List.nodup_singleton n, ?_⟩
  intro a ha hb
  rw [List.mem_singleton] at hb
  exact not_mem_pageNames_removePageNamed n s.pages h (hb ▸ ha)

/-- Running an appended sequence runs the two parts in order. -/
theorem runOps_append (s : AppState) (l1 l2 : List Op) :
    runOps s (l1 ++ l2) = runOps (runOps s l1) l2 := by
  simp [runOps, List.foldl_append]

/-- A well-matched sequence removes every page it shows: starting from any
state with distinct page names, it can only shrink the set of page names,
and keeps them distinct. -/
theorem matched_names_subset {ops : List Op} (hm : Matched ops) :
    ∀ s : AppState, (pageNames s.pages).Nodup →
      pageNames (runOps s ops).pages ⊆ pageNames s.pages ∧
        (pageNames (runOps s ops).pages).Nodup := by
  induction hm with
  | nil => exact fun s h => ⟨fun _ hx => hx, h⟩
  | @wrap n p r v ops hm ih =>
    intro s h
    have hrun : runOps s (Op.showPage n p r v :: ops ++ [Op.hidePage n])
        = removePage (runOps (addPage s n p r v) ops) n := by
      simp [runOps, List.foldl_append, applyOp]
    rw [hrun]
    have hnd1 : (pageNames (addPage s n p r v).pages).Nodup :=
      nodup_pageNames_addPage s n p r v h
    obtain ⟨hsub2, hnd2⟩ := ih (addPage s n p r v) hnd1
    constructor
    · intro x hx
      rw [removePage_pages] at hx
      have hx2 : x ∈ pageNames (runOps (addPage s n p r v) ops).pages :=
        pageNames_removePageNamed_subset _ _ hx
      have hx1 := hsub2 hx2
      rw [pageNames_addPage] at hx1
      rcases List.mem_append.mp hx1 with hx1 | hx1
      · exact pageNames_removePageNamed_subset _ _ hx1
      · rw [List.mem_singleton] at hx1
        subst hx1
        exact absurd hx (not_mem_pageNames_removePageNamed _ _ hnd2)
    · rw [removePage_pages]
      exact nodup_pageNames_removePageNamed _ _ hnd2
  | @seq l1 l2 h1 h2 ih1 ih2 =>
    intro s h
    rw [runOps_append]
    obtain ⟨hsubA, hndA⟩ := ih1 s h
    obtain ⟨hsubB, hndB⟩ := ih2 (runOps s l1) hndA
    exact ⟨hsubB.trans hsubA, hndB⟩

/-- A well-matched sequence leaves the focus slot where it was, or empty. -/
theorem matched_previousFocus {ops : List Op} (hm : Matched ops) :
    ∀ s : AppState, (runOps s ops).previousFocus = s.previousFocus ∨
      (runOps s ops).previousFocus = none := by
  induction hm with
  | nil => exact fun s => Or.inl rfl
  | @wrap n p r v ops hm ih =>
    intro s
    right
    have hrun : runOps s (Op.showPage n p r v :: ops ++ [Op.hidePage n])
        = removePage (runOps (addPage s n p r v) ops) n := by
      simp [runOps, List.foldl_append, applyOp]
    rw [hrun]
    exact removePage_previousFocus _ _
  | @seq l1 l2 h1 h2 ih1 ih2 =>
    intro s
    rw [runOps_append]
    rcases ih2 (runOps s l1) with h | h
    · rw [h]; exact ih1 s
    · exact Or.inr h

/-- Every `ShowPage`/`HidePage` preserves the stack-discipline invariant. -/
theorem applyOp_inv (s : AppState) (op : Op) (h : StackInv s) : StackInv (applyOp s op) := by
  cases op with
  | showPage n p r v =>
    intro _hp
    simp [applyOp, addPage_pages]
  | hidePage n =>
    intro hp
    exact absurd (removePage_previousFocus s n) hp

/-- Running any sequence preserves the stack-discipline invariant. -/
theorem runOps_inv (s : AppState) (ops : List Op) (h : StackInv s) :
    StackInv (runOps s ops) := by
  induction ops generalizing s with
  | nil => exact h
  | cons op rest ih => exact ih _ (applyOp_inv s op h)

/-- Under the invariant, the focus-slot depth is at most the page depth. -/
theorem focusDepth_le_of_inv (s : AppState) (h : StackInv s) :
    focusDepth s ≤ pageDepth s := by
  cases hp : s.previousFocus with
  | none => simp [focusDepth, hp]
  | some p =>
    have hne : s.pages ≠ [] := h (by simp [hp])
    have h1 : 0 < s.pages.length := List.length_pos.mpr hne
    simp only [focusDepth, hp, pageDepth]
    omega

/-- Claim C6: for every sequence of `ShowPage`/`HidePage` operations from
the initial state, the focus-slot depth never exceeds the page-stack depth
at any intermediate point, and a well-matched sequence returns both depths
to their initial values. -/
theorem c6_stack_discipline (f : Option Prim) (ops : List Op) :
    (∀ pre suf : List Op, ops = pre ++ suf →
      focusDepth (runOps (initState f) pre) ≤ pageDepth (runOps (initState f) pre)) ∧
    (Matched ops →
      pageDepth (runOps (initState f) ops) = pageDepth (initState f) ∧
      focusDepth (runOps (initState f) ops) = focusDepth (initState f)) := by
  constructor
  · intro pre _suf _h
    refine focusDepth_le_of_inv _ (runOps_inv _ pre ?_)
    intro h
    exact absurd rfl h
  · intro hm
    have hnd : (pageNames (initState f).pages).Nodup := by simp [initState, pageNames]
    obtain ⟨hsub, _⟩ := matched_names_subset hm (initState f) hnd
    have hnames : pageNames (runOps (initState f) ops).pages = [] :=
      List.subset_nil.mp (by simpa [initState, pageNames] using hsub)
    have hpages : (runOps (initState f) ops).pages = [] := by
      simpa [pageNames, List.map_eq_nil_iff] using hnames
    constructor
    · show (runOps (initState f) ops).pages.length = (initState f).pages.length
      rw [hpages]
      rfl
    · have h' : (runOps (initState f) ops).previousFocus = none := by
        rcases matched_previousFocus hm (initState f) with h | h
        · exact h.trans rfl
        · exact h
      unfold focusDepth
      rw [h']
      rfl

/-- Witness for C6 at a concrete matched sequence. -/
theorem c6_stack_discipline_witness :
    ([Op.showPage "a" ⟨"q"⟩ true true, Op.hidePage "a"]
        = [Op.showPage "a" ⟨"q"⟩ true true] ++ [Op.hidePage "a"]) ∧
    Matched [Op.showPage "a" ⟨"q"⟩ true true, Op.hidePage "a"] ∧
    focusDepth (runOps (initState (some ⟨"p"⟩)) [Op.showPage "a" ⟨"q"⟩ true true])
      ≤ pageDepth (runOps (initState (some ⟨"p"⟩)) [Op.showPage "a" ⟨"q"⟩ true true]) ∧
    pageDepth (runOps (initState (some ⟨"p"⟩))
        [Op.showPage "a" ⟨"q"⟩ true true, Op.hidePage "a"])
      = pageDepth (initState (some ⟨"p"⟩)) :=
  ⟨rfl, Matched.wrap "a" ⟨"q"⟩ true true Matched.nil,
    (c6_stack_discipline (some ⟨"p"⟩) [Op.showPage "a" ⟨"q"⟩ true true, Op.hidePage "a"]).1
      [Op.showPage "a" ⟨"q"⟩ true true] [Op.hidePage "a"] rfl,
    ((c6_stack_discipline (some ⟨"p"⟩) [Op.showPage "a" ⟨"q"⟩ true true, Op.hidePage "a"]).2
      (Matched.wrap "a" ⟨"q"⟩ true true Matched.nil)).1⟩

/-- Counterexample for C5: when the configuration persistence fails,
`SetStyle` returns the error, but the application's configured style name
has already been changed to the requested name, so it is not "unchanged
from before the call". -/
theorem c5_set_style_counterexample :
    ((setStyle ⟨some "write failed", fun _ => Except.error "unused"⟩
        ⟨"old", "old", some "oldStyles", some "oldStyles", []⟩ "new").2 = some "write failed") ∧
    (setStyle ⟨some "write failed", fun _ => Except.error "unused"⟩
        ⟨"old", "old", some "oldStyles", some "oldStyles", []⟩ "new").1.currentStyle
      ≠ ("old" : String) := by
  decide

/-- Claim C5 (amended): when `SetStyle` fails it returns the error rather
than terminating, broadcasts no event, and leaves the page-container
styling unchanged; on the persistence-failure path the loaded styles are
also unchanged — but the in-memory configured style name has already been
set to the requested name. -/
theorem c5_set_style_amended (env : StyleEnv) (a : StyleApp) (name e : String)
    (h : (setStyle env a name).2 = some e) :
    (setStyle env a name).1.events = a.events ∧
    (setStyle env a name).1.pagesStyle = a.pagesStyle ∧
    (setStyle env a name).1.currentStyle = name ∧
    (env.updateConfigErr.isSome = true → (setStyle env a name).1.styles = a.styles) := by
  unfold setStyle at *
  cases henv : env.updateConfigErr with
  | some e' => simp [henv]
  | none =>
    rw [henv] at h
    cases hload : env.loadStyles name with
    | error e' => simp [henv, hload]
    | ok st => simp [henv, hload] at h

/-- Witness for C5 (amended) on a concrete failing persistence call. -/
theorem c5_set_style_witness :
    ((setStyle ⟨some "boom", fun _ => Except.ok "s"⟩
        ⟨"old", "old", some "S", some "S", []⟩ "new").2 = some "boom") ∧
    ((setStyle ⟨some "boom", fun _ => Except.ok "s"⟩
          ⟨"old", "old", some "S", some "S", []⟩ "new").1.events = [] ∧
      (setStyle ⟨some "boom", fun _ => Except.ok "s"⟩
          ⟨"old", "old", some "S", some "S", []⟩ "new").1.pagesStyle = some "S" ∧
      (setStyle ⟨some "boom", fun _ => Except.ok "s"⟩
          ⟨"old", "old", some "S", some "S", []⟩ "new").1.currentStyle = "new" ∧
      ((⟨some "boom", fun _ => Except.ok "s"⟩ : StyleEnv).updateConfigErr.isSome = true →
        (setStyle ⟨some "boom", fun _ => Except.ok "s"⟩
            ⟨"old", "old", some "S", some "S", []⟩ "new").1.styles = some "S")) :=
  ⟨by decide, c5_set_style_amended _ _ "new" "boom" (by decide)⟩

/-- Claim C7: in the input bar's blocking listener, the Esc path and the
Enter path both disable the component; only the Enter path hands the
entered text to the accept callback, while the Esc path calls the reject
callback, which carries no data. -/
theorem c7_listener_paths (b : BarState) (hist : Option FileContents) (text : FileContents) :
    (listenerStep b hist text (.key .esc)).1.enabled = false ∧
    (listenerStep b hist text (.key .esc)).2.2 = [CallbackCall.reject] ∧
    (listenerStep b hist text (.key .enter)).1.enabled = false ∧
    (listenerStep b hist text (.key .enter)).2.2 = [CallbackCall.accept text] :=
  ⟨rfl, rfl, rfl, rfl⟩

/-- Claim C8, evaluated at the failing input: `UpdateDocument` on a
collection holding the document with `_id = 1` does not update it — the
old document is still present and a new document has been inserted; the
`id` argument is ignored entirely. -/
theorem c8_update_document_inserts :
    updateDocument [⟨1, "old"⟩] 1 ⟨1, "new"⟩ = [⟨1, "old"⟩, ⟨1, "new"⟩] ∧
    (⟨1, "old"⟩ : MDoc) ∈ updateDocument [⟨1, "old"⟩] 1 ⟨1, "new"⟩ ∧
    updateDocument [⟨1, "old"⟩] 999 ⟨1, "new"⟩ = updateDocument [⟨1, "old"⟩] 1 ⟨1, "new"⟩ := by
  decide

/-- Counterexample for C9: in the fully serialized execution of two
`Toggle` calls from two threads on a disabled bar, the second toggle
observes the flag enabled and disables, so the final state is the
even-toggle state (disabled), not the state after an odd number of net
toggles (enabled). -/
theorem c9_toggle_counterexample :
    (runSched initToggle [false, false, true, true]).g.enabled = false ∧
    (toggleOnce ⟨false, []⟩).enabled = true := by
  decide

/-- Claim C9 (amended): when two threads each run `Toggle` to completion
and neither observes the flag enabled (no disable occurs between the two
toggles — both take the `Enable` branch), the mutex serializes the two
idempotent flag updates and the final state equals the state after a
single net toggle, in every such interleaving. -/
theorem c9_toggle_amended (sched : List Bool)
    (hlen : sched.length = 4) (hcnt : sched.count false = 2)
    (h0 : (runSched initToggle sched).saw0 = false)
    (h1 : (runSched initToggle sched).saw1 = false) :
    (runSched initToggle sched).g.enabled = (toggleOnce ⟨false, []⟩).enabled := by
  match sched with
  | [a, b, c, d] =>
    cases a <;> cases b <;> cases c <;> cases d <;> revert hcnt h0 h1 <;> decide

/-- Witness for C9 (amended): both threads read before either writes. -/
theorem c9_toggle_witness :
    ([false, true, false, true] : List Bool).length = 4 ∧
    ([false, true, false, true] : List Bool).count false = 2 ∧
    (runSched initToggle [false, true, false, true]).saw0 = false ∧
    (runSched initToggle [false, true, false, true]).saw1 = false ∧
    (runSched initToggle [false, true, false, true]).g.enabled
      = (toggleOnce ⟨false, []⟩).enabled :=
  ⟨rfl, by decide, by decide, by decide,
    c9_toggle_amended [false, true, false, true] rfl (by decide) (by decide) (by decide)⟩

/-- Splitting never yields the empty list of parts. -/
theorem splitLines_ne_nil (c : FileContents) : splitLines c ≠ [] := by
  cases c with
  | nil => simp [splitLines]
  | cons a rest =>
    by_cases h : a = '\n'
    · simp [splitLines, h]
    · simp only [splitLines, if_neg h]
      cases hs : splitLines rest with
      | nil => simp
      | cons l ls => simp

/-- Splitting a newline-free part followed by a newline peels it off whole. -/
theorem splitLines_no_newline (t r : FileContents) (h : ('\n' : Char) ∉ t) :
    splitLines (t ++ '\n' :: r) = t :: splitLines r := by
  induction t with
  | nil => simp [splitLines]
  | cons a t ih =>
    have ha : ¬ a = '\n' := fun he => h (by rw [← he]; exact List.mem_cons_self a t)
    have h' : ('\n' : Char) ∉ t := fun hm => h (List.mem_cons_of_mem a hm)
    simp [List.cons_append, splitLines, if_neg ha, ih h']

/-- The line list of a nonempty file prefix is nonempty. -/
theorem linesBody_ne_nil (c : FileContents) (h1 : c ≠ []) : linesBody c ≠ [] := by
  cases c with
  | nil => exact absurd rfl h1
  | cons a rest =>
    by_cases ha : a = '\n'
    · simp [linesBody, ha]
    · simp only [linesBody, if_neg ha]
      cases hl : linesBody rest with
      | nil => simp
      | cons l ls => simp

/-- Unfolding `splitLines` on a non-newline head when the tail splits. -/
theorem splitLines_cons_of_cons (a : Char) (rest : FileContents) (ha : ¬ a = '\n')
    (l : FileContents) (ls : List FileContents) (h : splitLines rest = l :: ls) :
    splitLines (a :: rest) = (a :: l) :: ls := by
  simp [splitLines, ha, h]

/-- Unfolding `linesBody` on a non-newline head when the tail has lines. -/
theorem linesBody_cons_of_cons (a : Char) (rest : FileContents) (ha : ¬ a = '\n')
    (l : FileContents) (ls : List FileContents) (h : linesBody rest = l :: ls) :
    linesBody (a :: rest) = (a :: l) :: ls := by
  simp [linesBody, ha, h]

/-- Splitting distributes over a newline-terminated (or empty) prefix. -/
theorem splitLines_append (pre r : FileContents) (h : endsWithNewlineOrEmpty pre) :
    splitLines (pre ++ r) = linesBody pre ++ splitLines r := by
  induction pre with
  | nil => simp [linesBody]
  | cons a pre ih =>
    by_cases ha : a = '\n'
    · have h' : endsWithNewlineOrEmpty pre := by
        cases pre with
        | nil => exact Or.inl rfl
        | cons b rest =>
          right
          rcases h with h | h
          · exact absurd h (by simp)
          · rw [← h]
            exact List.getLast?_cons_cons.symm
      simp [List.cons_append, splitLines, if_pos ha, linesBody, ih h']
    · cases pre with
      | nil =>
        rcases h with h | h
        · exact absurd h (by simp)
        · simp only [List.getLast?_singleton, Option.some.injEq] at h
          exact absurd h ha
      | cons b rest =>
        have h' : endsWithNewlineOrEmpty (b :: rest) := by
          right
          rcases h with h | h
          · exact absurd h (by simp)
          · rw [← h]
            exact List.getLast?_cons_cons.symm
        obtain ⟨l, ls, hl⟩ : ∃ l ls, linesBody (b :: rest) = l :: ls := by
          cases hx : linesBody (b :: rest) with
          | nil => exact absurd hx (linesBody_ne_nil (b :: rest) (by simp))
          | cons l ls => exact ⟨l, ls, rfl⟩
        have hsp : splitLines ((b :: rest) ++ r) = l :: (ls ++ splitLines r) := by
          rw [ih h', hl]
          rfl
        calc splitLines ((a :: b :: rest) ++ r)
            = splitLines (a :: ((b :: rest) ++ r)) := rfl
          _ = (a :: l) :: (ls ++ splitLines r) :=
              splitLines_cons_of_cons a _ ha _ _ hsp
          _ = ((a :: l) :: ls) ++ splitLines r := rfl
          _ = linesBody (a :: b :: rest) ++ splitLines r := by
              rw [linesBody_cons_of_cons a _ ha _ _ hl]

/-- A nonempty, newline-free text appended (with its newline) to a
newline-terminated file occurs as a history line of the result. -/
theorem mem_loadHistory_append (c t : FileContents) (h1 : t ≠ [])
    (h2 : ('\n' : Char) ∉ t) (h3 : endsWithNewlineOrEmpty c) :
    t ∈ loadHistoryLines (c ++ t ++ ['\n']) := by
  have hsplit : splitLines (c ++ (t ++ ['\n'])) = linesBody c ++ splitLines (t ++ ['\n']) :=
    splitLines_append c _ h3
  have h4 : splitLines (t ++ ['\n']) = t :: splitLines [] :=
    splitLines_no_newline t [] h2
  rw [loadHistoryLines, List.append_assoc, hsplit, h4]
  rw [List.mem_filter]
  exact ⟨List.mem_append_right _ (List.mem_cons_self _ _), by simp [h1]⟩

/-- Counterexample for C10: saving the empty text twice appends two
newlines — the second call does not recognise the first write, because
empty lines are dropped when the history is loaded. -/
theorem c10_save_history_counterexample :
    saveToHistory [] (some (saveToHistory [] none)) ≠ saveToHistory [] none := by
  decide

/-- Claim C10 (amended): a text already occurring as a history line is not
written again and the file is unchanged; and saving twice equals saving
once for every nonempty, newline-free text when the existing contents are
empty or newline-terminated (texts that cannot occur as a single line —
the empty text or texts containing a newline — are re-appended). -/
theorem c10_save_history_amended (text : FileContents) (file : Option FileContents)
    (h1 : text ≠ []) (h2 : ('\n' : Char) ∉ text)
    (h3 : endsWithNewlineOrEmpty (file.getD [])) :
    (∀ c : FileContents, text ∈ loadHistoryLines c → saveToHistory text (some c) = c) ∧
    saveToHistory text (some (saveToHistory text file)) = saveToHistory text file := by
  constructor
  · intro c hc
    simp [saveToHistory, hc]
  · by_cases hmem : text ∈ loadHistoryLines (file.getD [])
    · simp [saveToHistory, hmem]
    · have honce : saveToHistory text file = file.getD [] ++ text ++ ['\n'] := by
        simp [saveToHistory, hmem]
      have hmem2 : text ∈ loadHistoryLines (file.getD [] ++ text ++ ['\n']) :=
        mem_loadHistory_append _ _ h1 h2 h3
      have hmem3 : text ∈ loadHistoryLines (file.getD [] ++ (text ++ ['\n'])) := by
        rw [← List.append_assoc]
        exact hmem2
      rw [honce]
      simp [saveToHistory, hmem2, hmem3]

/-- Witness for C10 (amended) on a concrete text and absent file. -/
theorem c10_save_history_witness :
    (['a'] : FileContents) ≠ [] ∧ ('\n' : Char) ∉ (['a'] : FileContents) ∧
    endsWithNewlineOrEmpty ((none : Option FileContents).getD []) ∧
    saveToHistory ['a'] (some (saveToHistory ['a'] none)) = saveToHistory ['a'] none :=
  ⟨by decide, by decide, Or.inl rfl,
    (c10_save_history_amended ['a'] none (by decide) (by decide) (Or.inl rfl)).2⟩

end Mongui
